import Mathlib

/-!
Verification of the Configly concurrent configuration store
(src/include/configly/configly.hpp).

The record type T is modelled as a fixed-length list of bytes (List Nat),
matching the source's requirement that T be trivially copyable and its use
of offset/size byte addressing (memcmp, reinterpret_cast arithmetic).

A field selector (C++ pointer-to-member) is modelled as an offset/width
descriptor together with the field type's equality operator, which the
per-field set path uses for change detection (operator== on the field
type, line 200), as opposed to the raw memcmp used by the whole-record
path (line 334).

Two models are developed:
  * a sequential model of each public operation run to completion
    (claims about single-threaded functional behaviour), and
  * an interleaved small-step transition system for the seqlock read and
    write protocols (claims about concurrent reads and generation
    counters), in namespace Conc.
-/

namespace Configly

/-- Raw bytes of a record or of a field value. -/
abbrev Bytes := List Nat

/-- Field selector: the byte offset and size the source computes from a
pointer-to-member (calculateOffset, sizeof), plus the field type's
operator== used by set's change detection. -/
structure Field where
  offset : Nat
  width : Nat
  beq : Bytes → Bytes → Bool

/-- Bytes at [off, off+len) of a record, as read through a reinterpreted
char pointer in the source. -/
def readBytesAt (d : Bytes) (off len : Nat) : Bytes :=
  (d.drop off).take len

/-- Value of a field of a record (the source's config.*member read). -/
def readField (d : Bytes) (f : Field) : Bytes :=
  readBytesAt d f.offset f.width

/-- Overwrite bytes starting at a given offset, one byte at a time, in
bounds of the fixed-size record (the source's member assignment). -/
def writeBytesAt : Bytes → Nat → Bytes → Bytes
  | d, _, [] => d
  | d, off, b :: bs => writeBytesAt (d.set off b) (off + 1) bs

/-- Store a field value into a record (target.data.*member = value). -/
def writeField (d : Bytes) (f : Field) (v : Bytes) : Bytes :=
  writeBytesAt d f.offset v

/-- One registry slot (struct CallbackSlot): member offset and size, the
thunk pointer modelled as a live/cleared flag, and the user callback plus
context modelled as an identifier. -/
structure CallbackSlot where
  memberOffset : Nat
  memberSize : Nat
  thunkSet : Bool
  cbId : Nat
deriving DecidableEq, Repr

/-- One callback invocation: which slot offset fired, which registered
callback ran, and the field-value bytes it received. -/
structure Event where
  offset : Nat
  cbId : Nat
  value : Bytes
deriving DecidableEq, Repr

/-- Result of the source's std::memcmp(oldPtr, newPtr, size) != 0 test. -/
def memcmpNe (a b : Bytes) (off len : Nat) : Bool :=
  decide (¬ readBytesAt a off len = readBytesAt b off len)

/-- Sequential store state: the two buffers with their generation
counters, the active index, the default record, and the used prefix of
the callback array (m_callbacks[0..m_callbackCount)). The save/load
function pointers are external inputs and are passed to the operations
that use them. -/
structure SState where
  seq0 : Nat
  data0 : Bytes
  seq1 : Nat
  data1 : Bytes
  active : Bool
  defaultConfig : Bytes
  callbacks : List CallbackSlot
deriving DecidableEq, Repr

/-- Generation counter of buffer b. -/
def seqOf (s : SState) (b : Bool) : Nat :=
  if b then s.seq1 else s.seq0

/-- Data of buffer b. -/
def dataOf (s : SState) (b : Bool) : Bytes :=
  if b then s.data1 else s.data0

/-- Store a generation counter into buffer b. -/
def setSeq (s : SState) (b : Bool) (v : Nat) : SState :=
  if b then { s with seq1 := v } else { s with seq0 := v }

/-- Store record data into buffer b. -/
def setData (s : SState) (b : Bool) (d : Bytes) : SState :=
  if b then { s with data1 := d } else { s with data0 := d }

/-- Data of the buffer readers currently consult. -/
def activeData (s : SState) : Bytes :=
  dataOf s s.active

/-- One iteration of getAll's retry loop, run without interference:
load the active index, check the start sequence is even, copy the data,
re-read the sequence, and validate start = end and even. -/
def getAllOnce (s : SState) : Option Bytes :=
  let idx := s.active
  let start := seqOf s idx
  if start % 2 = 1 then none
  else
    let temp := dataOf s idx
    let endSeq := seqOf s idx
    if start = endSeq ∧ endSeq % 2 = 0 then some temp else none

/-- Per-field dispatch (triggerCallback): scan the slots in order and fire
the first one whose offset matches and whose thunk is non-null, then
return. -/
def triggerCallback : List CallbackSlot → Nat → Bytes → List Event
  | [], _, _ => []
  | slot :: rest, off, val =>
    if slot.memberOffset = off ∧ slot.thunkSet = true then
      [⟨off, slot.cbId, val⟩]
    else
      triggerCallback rest off val

/-- Whole-record dispatch (triggerCallbacksForChanges): for every slot
with a live thunk whose bytes differ between old and new record
(memcmp over offset and size), fire it with the new bytes. -/
def triggerCallbacksForChanges (cbs : List CallbackSlot) (oldC newC : Bytes) :
    List Event :=
  cbs.filterMap fun slot =>
    if slot.thunkSet = true ∧ memcmpNe oldC newC slot.memberOffset slot.memberSize = true then
      some ⟨slot.memberOffset, slot.cbId, readBytesAt newC slot.memberOffset slot.memberSize⟩
    else
      none

/-- Whole-record update run sequentially: write the new record into the
inactive buffer under the seq protocol (store seq+1, write data, store
seq+2), publish it as active, then diff old against the published buffer
and fire callbacks. -/
def update (s : SState) (c : Bytes) : SState × List Event :=
  let a := s.active
  let ina := !a
  let oldC := dataOf s a
  let sq := seqOf s ina
  let s1 := setSeq s ina (sq + 1)
  let s2 := setData s1 ina c
  let s3 := setSeq s2 ina (sq + 2)
  let s4 := { s3 with active := ina }
  (s4, triggerCallbacksForChanges s.callbacks oldC (dataOf s4 ina))

/-- Per-field set run sequentially: copy the active record into the
inactive buffer, overwrite the field, publish, then fire that field's
callback if the old and read-back new value compare unequal under the
field type's operator==. -/
def set (s : SState) (f : Field) (v : Bytes) : SState × List Event :=
  let a := s.active
  let ina := !a
  let oldValue := readField (dataOf s a) f
  let sq := seqOf s ina
  let s1 := setSeq s ina (sq + 1)
  let s2 := setData s1 ina (writeField (dataOf s a) f v)
  let s3 := setSeq s2 ina (sq + 2)
  let s4 := { s3 with active := ina }
  let newValue := readField (dataOf s4 ina) f
  if f.beq oldValue newValue = true then
    (s4, [])
  else
    (s4, triggerCallback s.callbacks f.offset newValue)

/-- Replace the first slot whose offset matches, in place, keeping its
position, offset and size (the scan loop at the top of onChange);
none when no slot matches. -/
def replaceSlot : List CallbackSlot → Nat → Nat → Option (List CallbackSlot)
  | [], _, _ => none
  | slot :: rest, off, id =>
    if slot.memberOffset = off then
      some ({ slot with cbId := id, thunkSet := true } :: rest)
    else
      (replaceSlot rest off id).map (slot :: ·)

/-- Registration (onChange): replace an existing slot for the same offset
in place; otherwise, if the registry is full, raise the assertion
(returned as the Bool) and register nothing; otherwise append a fresh
slot. maxCb is the MaxCallbacks template parameter. -/
def onChange (maxCb : Nat) (s : SState) (f : Field) (id : Nat) :
    SState × Bool :=
  match replaceSlot s.callbacks f.offset id with
  | some cbs => ({ s with callbacks := cbs }, false)
  | none =>
    if maxCb ≤ s.callbacks.length then
      (s, true)
    else
      ({ s with callbacks := s.callbacks ++ [⟨f.offset, f.width, true, id⟩] }, false)

/-- Clear the thunk of the first slot whose offset matches, leaving the
slot in place (removeCallback). -/
def clearSlot : List CallbackSlot → Nat → List CallbackSlot
  | [], _ => []
  | slot :: rest, off =>
    if slot.memberOffset = off then
      { slot with thunkSet := false } :: rest
    else
      slot :: clearSlot rest off

/-- Unregistration (removeCallback). -/
def removeCallback (s : SState) (f : Field) : SState :=
  { s with callbacks := clearSlot s.callbacks f.offset }

/-- Load (load): the hook argument models the installed m_loadUserConfig
pointer — none when absent, otherwise the record it produces and its
success flag. On success the record goes through the whole-record update
path; otherwise nothing changes and no callbacks fire. -/
def load (s : SState) (hook : Option (Bytes × Bool)) :
    Bool × SState × List Event :=
  match hook with
  | none => (false, s, [])
  | some (r, ok) =>
    if ok then
      let u := update s r
      (true, u.1, u.2)
    else
      (false, s, [])

/-- Restore the whole record to the stored default (restoreDefaults). -/
def restoreDefaults (s : SState) : SState × List Event :=
  update s s.defaultConfig

/-- Establish the default and reinitialize both buffers to it with even
(zero) generation counters and active index 0 (setDefault). -/
def setDefault (s : SState) (d : Bytes) : SState :=
  { s with defaultConfig := d, seq0 := 0, data0 := d,
           seq1 := 0, data1 := d, active := false }

/-- Per-field read (get): a full getAll snapshot projected to the field. -/
def get (s : SState) (f : Field) : Option Bytes :=
  (getAllOnce s).map (fun t => readField t f)

/-- A sequence of per-field set calls, states only. -/
def applySets (ops : List (Field × Bytes)) (s : SState) : SState :=
  ops.foldl (fun st op => (set st op.1 op.2).1) s

/-- Identifier of the callback that triggerCallback would fire for an
offset: the first slot whose offset matches and whose thunk is live. -/
def firedCallback : List CallbackSlot → Nat → Option Nat
  | [], _ => none
  | slot :: rest, off =>
    if slot.memberOffset = off ∧ slot.thunkSet = true then some slot.cbId
    else firedCallback rest off

/-- Index of the first registry slot for a given offset (the position the
scan loops in onChange and removeCallback stop at), regardless of whether
its thunk is live. -/
def firstOffsetIdx : List CallbackSlot → Nat → Option Nat
  | [], _ => none
  | slot :: rest, off =>
    if slot.memberOffset = off then some 0
    else (firstOffsetIdx rest off).map (· + 1)

/-- Registry well-formedness: at most one slot per field offset. The
source maintains this because onChange replaces an existing slot for the
same offset instead of appending a duplicate. -/
def offsetsUnique (cbs : List CallbackSlot) : Prop :=
  cbs.Pairwise (fun a b => a.memberOffset ≠ b.memberOffset)

namespace Conc

/-!
Interleaved model of the seqlock protocols. Shared memory is a CState;
the single writer (writers are serialized by m_writeLock) and one reader
(readers are passive and independent, so one suffices) each have a
program counter. Every store to shared memory is its own atomic step;
a thread's loads of locations only that thread ever stores (the writer's
loads of m_activeIndex and of the target seq) are folded into the step
that follows them, which preserves the set of observable behaviours
because the reader performs no stores at all. The interleaving semantics
is sequentially consistent, taking the source's acquire/release/fence
annotations as achieving their intended ordering. The ghost field
written records every record value handed to a write call, with the
setDefault baseline as the initial entry. -/

/-- Shared state: the two buffers (generation counter + data), the
published active index, the writer spin lock, and the ghost history of
complete record values given to write calls. -/
structure CState where
  seq0 : Nat
  data0 : Bytes
  seq1 : Nat
  data1 : Bytes
  active : Bool
  lock : Bool
  written : List Bytes
deriving DecidableEq, Repr

/-- Generation counter of buffer b. -/
def seqOf (s : CState) (b : Bool) : Nat :=
  if b then s.seq1 else s.seq0

/-- Data of buffer b. -/
def dataOf (s : CState) (b : Bool) : Bytes :=
  if b then s.data1 else s.data0

/-- Store a generation counter into buffer b. -/
def setSeq (s : CState) (b : Bool) (v : Nat) : CState :=
  if b then { s with seq1 := v } else { s with seq0 := v }

/-- Store record data into buffer b. -/
def setData (s : CState) (b : Bool) (d : Bytes) : CState :=
  if b then { s with data1 := d } else { s with data0 := d }

/-- Writer program counter, following update()'s body: acquire the lock
choosing the record to write, store seq+1 on the inactive buffer, copy
the data byte by byte, store seq+2, publish the buffer as active,
release the lock. -/
inductive WPc where
  | idle : WPc
  | start : Bytes → WPc
  | writing : Bytes → Bool → Nat → Nat → WPc
  | wrote : Bytes → Bool → WPc
  | published : WPc
deriving DecidableEq, Repr

/-- Reader program counter, following getAll()'s loop body: load the
active index and its start sequence (retrying while odd), copy the data
byte by byte, then re-read the sequence and validate. -/
inductive RPc where
  | idle : RPc
  | copying : Bool → Nat → Bytes → RPc
  | done : Bytes → RPc
deriving DecidableEq, Repr

/-- Whole-system state. -/
structure TState where
  st : CState
  w : WPc
  r : RPc
deriving DecidableEq, Repr

/-- One atomic step of the interleaved system, for records of n bytes.
The reader's retry on an odd start sequence changes nothing and so needs
no transition; rAbort lets the reader abandon a copy and restart, which
covers the failed-validation retry. -/
inductive Step (n : Nat) : TState → TState → Prop where
  | wBegin (ts : TState) (c : Bytes) :
      ts.w = WPc.idle → ts.st.lock = false → c.length = n →
      Step n ts ⟨{ ts.st with lock := true, written := c :: ts.st.written },
                 WPc.start c, ts.r⟩
  | wSeqOdd (ts : TState) (c : Bytes) :
      ts.w = WPc.start c →
      Step n ts ⟨setSeq ts.st (!ts.st.active) (seqOf ts.st (!ts.st.active) + 1),
                 WPc.writing c (!ts.st.active) (seqOf ts.st (!ts.st.active)) 0,
                 ts.r⟩
  | wByte (ts : TState) (c : Bytes) (tgt : Bool) (s k : Nat) :
      ts.w = WPc.writing c tgt s k → k < n →
      Step n ts ⟨setData ts.st tgt ((dataOf ts.st tgt).set k (c.getD k 0)),
                 WPc.writing c tgt s (k + 1), ts.r⟩
  | wSeqEven (ts : TState) (c : Bytes) (tgt : Bool) (s : Nat) :
      ts.w = WPc.writing c tgt s n →
      Step n ts ⟨setSeq ts.st tgt (s + 2), WPc.wrote c tgt, ts.r⟩
  | wPublish (ts : TState) (c : Bytes) (tgt : Bool) :
      ts.w = WPc.wrote c tgt →
      Step n ts ⟨{ ts.st with active := tgt }, WPc.published, ts.r⟩
  | wUnlock (ts : TState) :
      ts.w = WPc.published →
      Step n ts ⟨{ ts.st with lock := false }, WPc.idle, ts.r⟩
  | rBegin (ts : TState) :
      ts.r = RPc.idle → seqOf ts.st ts.st.active % 2 = 0 →
      Step n ts ⟨ts.st, ts.w,
                 RPc.copying ts.st.active (seqOf ts.st ts.st.active) []⟩
  | rCopy (ts : TState) (idx : Bool) (s : Nat) (acc : Bytes) :
      ts.r = RPc.copying idx s acc → acc.length < n →
      Step n ts ⟨ts.st, ts.w,
                 RPc.copying idx s (acc ++ [(dataOf ts.st idx).getD acc.length 0])⟩
  | rValidateOk (ts : TState) (idx : Bool) (s : Nat) (acc : Bytes) :
      ts.r = RPc.copying idx s acc → acc.length = n →
      seqOf ts.st idx = s → s % 2 = 0 →
      Step n ts ⟨ts.st, ts.w, RPc.done acc⟩
  | rAbort (ts : TState) (idx : Bool) (s : Nat) (acc : Bytes) :
      ts.r = RPc.copying idx s acc →
      Step n ts ⟨ts.st, ts.w, RPc.idle⟩
  | rRestart (ts : TState) (res : Bytes) :
      ts.r = RPc.done res →
      Step n ts ⟨ts.st, ts.w, RPc.idle⟩

/-- System state right after a single-threaded setDefault(d): both
buffers hold d with even (zero) counters, buffer 0 is active, the lock
is free, and d is the only value written so far. -/
def initTS (d : Bytes) : TState :=
  ⟨⟨0, d, 0, d, false, false, [d]⟩, WPc.idle, RPc.idle⟩

/-- States reachable from the initial state by interleaved steps. -/
def Reachable (n : Nat) (d : Bytes) (ts : TState) : Prop :=
  Relation.ReflTransGen (Step n) (initTS d) ts

/-- Value stored by a write's first generation increment
(target.seq.store(seq + 1), configly.hpp line 148), as a function of the
counter value loaded at write start. -/
def seqWriteBegin (s : Nat) : Nat := s + 1

/-- Value stored by a write's second generation increment
(target.seq.store(seq + 2), configly.hpp line 154), as a function of the
counter value loaded at write start. -/
def seqWriteEnd (s : Nat) : Nat := s + 2

/-- Inductive invariant of the interleaved system. -/
structure Inv (n : Nat) (ts : TState) : Prop where
  lens : ∀ b : Bool, (dataOf ts.st b).length = n
  seqParity : ∀ b : Bool, seqOf ts.st b % 2 = 1 ↔
    ∃ c s k, ts.w = WPc.writing c b s k
  evenWritten : ∀ b : Bool, seqOf ts.st b % 2 = 0 →
    dataOf ts.st b ∈ ts.st.written
  startInv : ∀ c, ts.w = WPc.start c → c.length = n ∧ c ∈ ts.st.written
  writingInv : ∀ c tgt s k, ts.w = WPc.writing c tgt s k →
    c.length = n ∧ c ∈ ts.st.written ∧ k ≤ n ∧
    seqOf ts.st tgt = s + 1 ∧ (dataOf ts.st tgt).take k = c.take k
  wroteInv : ∀ c tgt, ts.w = WPc.wrote c tgt →
    dataOf ts.st tgt = c ∧ c ∈ ts.st.written
  copyInv : ∀ idx s acc, ts.r = RPc.copying idx s acc →
    s % 2 = 0 ∧ acc.length ≤ n ∧ s ≤ seqOf ts.st idx ∧
    (seqOf ts.st idx = s → acc = (dataOf ts.st idx).take acc.length)
  doneInv : ∀ res, ts.r = RPc.done res → res ∈ ts.st.written

end Conc

/-! ### Basic lemmas about byte-level reads and writes -/

theorem writeBytesAt_length (v : Bytes) : ∀ (d : Bytes) (off : Nat),
    (writeBytesAt d off v).length = d.length := by
  induction v with
  | nil => intro d off; rfl
  | cons b bs ih =>
    intro d off
    simp [writeBytesAt, ih]

theorem writeBytesAt_eq_append (v : Bytes) : ∀ (d : Bytes) (off : Nat),
    off + v.length ≤ d.length →
    writeBytesAt d off v = d.take off ++ v ++ d.drop (off + v.length) := by
  induction v with
  | nil =>
    intro d off _
    simp [writeBytesAt]
  | cons b bs ih =>
    intro d off h
    have hoff : off < d.length := by simp at h; omega
    have hset : off + bs.length ≤ (d.set off b).length := by
      simp at h ⊢; omega
    rw [writeBytesAt, ih (d.set off b) (off + 1) (by simpa using (by simp at h; omega))]
    rw [List.set_eq_take_append_cons_drop, if_pos hoff]
    have hlen : (d.take off).length = off := by
      simp [List.length_take]
      omega
    have htk : ((d.take off ++ b :: d.drop (off + 1)).take (off + 1))
        = d.take off ++ [b] := by
      rw [List.take_append_eq_append_take, hlen]
      have h2 : off + 1 - off = 1 := by omega
      rw [h2]
      simp [List.take_take]
    have hdr : ((d.take off ++ b :: d.drop (off + 1)).drop (off + 1 + bs.length))
        = d.drop (off + (bs.length + 1)) := by
      rw [List.drop_append_eq_append_drop, hlen]
      have h1 : (d.take off).drop (off + 1 + bs.length) = [] :=
        List.drop_eq_nil_of_le (by rw [hlen]; omega)
      have h2 : off + 1 + bs.length - off = bs.length + 1 := by omega
      rw [h1, h2]
      rw [List.nil_append, List.drop_succ_cons, List.drop_drop]
      congr 1
      omega
    rw [htk, hdr]
    simp

theorem readBytesAt_writeBytesAt (v d : Bytes) (off : Nat)
    (h : off + v.length ≤ d.length) :
    readBytesAt (writeBytesAt d off v) off v.length = v := by
  rw [writeBytesAt_eq_append v d off h, readBytesAt]
  have hlt : off ≤ d.length := by omega
  rw [List.append_assoc, List.drop_append_eq_append_drop]
  simp [List.length_take, Nat.min_eq_left hlt, List.drop_take, List.take_left]

theorem readField_writeField (d : Bytes) (f : Field) (v : Bytes)
    (hw : v.length = f.width) (hb : f.offset + f.width ≤ d.length) :
    readField (writeField d f v) f = v := by
  rw [readField, writeField, ← hw]
  exact readBytesAt_writeBytesAt v d f.offset (by omega)

/-! ### Shape lemmas for the sequential operations -/

theorem set_fst (s : SState) (f : Field) (v : Bytes) :
    (set s f v).1 =
      if s.active then
        { s with seq0 := s.seq0 + 2, data0 := writeField s.data1 f v,
                 active := false }
      else
        { s with seq1 := s.seq1 + 2, data1 := writeField s.data0 f v,
                 active := true } := by
  rcases s with ⟨q0, d0, q1, d1, a, dc, cbs⟩
  cases a <;> simp [set, setSeq, setData, seqOf, dataOf] <;> split <;> rfl

theorem set_snd (s : SState) (f : Field) (v : Bytes) :
    (set s f v).2 =
      if f.beq (readField (activeData s) f)
          (readField (writeField (activeData s) f v) f) = true then []
      else triggerCallback s.callbacks f.offset
        (readField (writeField (activeData s) f v) f) := by
  rcases s with ⟨q0, d0, q1, d1, a, dc, cbs⟩
  cases a <;> simp [set, setSeq, setData, seqOf, dataOf, activeData] <;>
    split <;> rfl

theorem update_fst (s : SState) (c : Bytes) :
    (update s c).1 =
      if s.active then
        { s with seq0 := s.seq0 + 2, data0 := c, active := false }
      else
        { s with seq1 := s.seq1 + 2, data1 := c, active := true } := by
  rcases s with ⟨q0, d0, q1, d1, a, dc, cbs⟩
  cases a <;> rfl

theorem update_snd (s : SState) (c : Bytes) :
    (update s c).2 = triggerCallbacksForChanges s.callbacks (activeData s) c := by
  rcases s with ⟨q0, d0, q1, d1, a, dc, cbs⟩
  cases a <;> rfl

theorem getAllOnce_update (s : SState) (c : Bytes)
    (hq : seqOf s (!s.active) % 2 = 0) :
    getAllOnce (update s c).1 = some c := by
  rw [update_fst]
  rcases s with ⟨q0, d0, q1, d1, a, dc, cbs⟩
  cases a <;> simp [seqOf] at hq <;>
    simp [getAllOnce, seqOf, dataOf] <;> omega

/-! ### Claim theorems C5, C6, C7 -/

/-- C5: For every field selector F and value v, a single-threaded
set(F, v) immediately followed by get(F) returns v. (The state must be
quiescent — even generation counters, as every reachable sequential state
is — and the value must have the field's width and lie inside the
record.) -/
theorem set_then_get (s : SState) (f : Field) (v : Bytes)
    (hq : seqOf s (!s.active) % 2 = 0)
    (hw : v.length = f.width)
    (hb : f.offset + f.width ≤ (activeData s).length) :
    get (set s f v).1 f = some v := by
  have h1 : getAllOnce (set s f v).1 = some (writeField (activeData s) f v) := by
    rw [set_fst]
    rcases s with ⟨q0, d0, q1, d1, a, dc, cbs⟩
    cases a <;> simp [seqOf] at hq <;>
      simp [getAllOnce, seqOf, dataOf, activeData] <;> omega
  rw [get, h1]
  simp [readField_writeField _ _ _ hw hb]

/-- C5 witness: a concrete set followed by get returns the value set. -/
theorem set_then_get_witness :
    get (set ⟨0, [1, 2], 0, [1, 2], false, [1, 2], []⟩
          ⟨0, 1, fun a b => decide (a = b)⟩ [9]).1
        ⟨0, 1, fun a b => decide (a = b)⟩ = some [9] :=
  set_then_get ⟨0, [1, 2], 0, [1, 2], false, [1, 2], []⟩
    ⟨0, 1, fun a b => decide (a = b)⟩ [9]
    (by decide) (by decide) (by decide)

/-- C6: For every record D, setDefault(D) immediately followed by
getAll() returns D, and both slots are reset to even (zero) generation
counters holding identical data. -/
theorem setDefault_then_getAll (s : SState) (d : Bytes) :
    getAllOnce (setDefault s d) = some d ∧
    (setDefault s d).seq0 % 2 = 0 ∧
    (setDefault s d).seq1 % 2 = 0 ∧
    (setDefault s d).data0 = (setDefault s d).data1 :=
  ⟨rfl, rfl, rfl, rfl⟩

/-- C7: After setDefault(D) and any single-threaded sequence of set
calls, restoreDefaults() makes getAll() return D. -/
theorem restoreDefaults_after_sets (s : SState) (d : Bytes)
    (ops : List (Field × Bytes)) :
    getAllOnce (restoreDefaults (applySets ops (setDefault s d))).1 = some d := by
  suffices h : ∀ (t : SState), t.seq0 % 2 = 0 → t.seq1 % 2 = 0 →
      (applySets ops t).defaultConfig = t.defaultConfig ∧
      (applySets ops t).seq0 % 2 = 0 ∧ (applySets ops t).seq1 % 2 = 0 by
    obtain ⟨hdc, h0, h1⟩ := h (setDefault s d) rfl rfl
    have hq : seqOf (applySets ops (setDefault s d))
        (!(applySets ops (setDefault s d)).active) % 2 = 0 := by
      cases hA : (applySets ops (setDefault s d)).active <;> simp [seqOf] <;>
        [exact h1; exact h0]
    rw [restoreDefaults, getAllOnce_update _ _ hq, hdc]
    rfl
  induction ops with
  | nil => intro t h0 h1; exact ⟨rfl, h0, h1⟩
  | cons op rest ih =>
    intro t h0 h1
    have hstep : ((set t op.1 op.2).1).defaultConfig = t.defaultConfig ∧
        ((set t op.1 op.2).1).seq0 % 2 = 0 ∧
        ((set t op.1 op.2).1).seq1 % 2 = 0 := by
      rw [set_fst]
      cases hA : t.active <;> simp <;> omega
    obtain ⟨hdc, h0', h1'⟩ := hstep
    obtain ⟨hdc2, h02, h12⟩ := ih ((set t op.1 op.2).1) h0' h1'
    refine ⟨?_, h02, h12⟩
    rw [applySets] at hdc2 ⊢
    simp only [List.foldl_cons] at *
    rw [hdc2, hdc]

/-! ### Callback dispatch lemmas -/

theorem triggerCallback_eq (cbs : List CallbackSlot) (off : Nat) (val : Bytes) :
    triggerCallback cbs off val =
      match firedCallback cbs off with
      | some id => [⟨off, id, val⟩]
      | none => [] := by
  induction cbs with
  | nil => rfl
  | cons slot rest ih =>
    rw [triggerCallback, firedCallback]
    split
    · rfl
    · exact ih

theorem mem_triggerCallbacksForChanges (cbs : List CallbackSlot)
    (oldC newC : Bytes) (e : Event) :
    e ∈ triggerCallbacksForChanges cbs oldC newC ↔
    ∃ slot ∈ cbs, slot.thunkSet = true ∧
      memcmpNe oldC newC slot.memberOffset slot.memberSize = true ∧
      e = ⟨slot.memberOffset, slot.cbId,
           readBytesAt newC slot.memberOffset slot.memberSize⟩ := by
  simp only [triggerCallbacksForChanges, List.mem_filterMap]
  constructor
  · rintro ⟨slot, hmem, hf⟩
    split at hf
    · rename_i hcond
      cases hf
      exact ⟨slot, hmem, hcond.1, hcond.2, rfl⟩
    · cases hf
  · rintro ⟨slot, hmem, h1, h2, rfl⟩
    exact ⟨slot, hmem, by simp [h1, h2]⟩

/-! ### Claim theorems C3, C4 -/

/-- C3: With a callback registered for field F (the live registry entry
that triggerCallback resolves for F's offset), a single-threaded
set(F, newValue) invokes that callback exactly once with newValue when
newValue differs from F's current value under the field type's
operator==, and zero times when they compare equal. -/
theorem set_callback_exactly_once (s : SState) (f : Field) (v : Bytes)
    (id : Nat)
    (hreg : firedCallback s.callbacks f.offset = some id)
    (hw : v.length = f.width)
    (hb : f.offset + f.width ≤ (activeData s).length) :
    (f.beq (readField (activeData s) f) v = false →
      (set s f v).2 = [⟨f.offset, id, v⟩]) ∧
    (f.beq (readField (activeData s) f) v = true →
      (set s f v).2 = []) := by
  have hrb : readField (writeField (activeData s) f v) f = v :=
    readField_writeField _ _ _ hw hb
  rw [set_snd, hrb]
  constructor
  · intro hne
    rw [if_neg (by simp [hne]), triggerCallback_eq, hreg]
  · intro heq
    rw [if_pos heq]

/-- C3 witness at a concrete store, field and values. -/
theorem set_callback_exactly_once_witness :
    (set ⟨0, [1, 2], 0, [1, 2], false, [1, 2], [⟨0, 1, true, 42⟩]⟩
        ⟨0, 1, fun a b => decide (a = b)⟩ [9]).2 = [⟨0, 42, [9]⟩] ∧
    (set ⟨0, [1, 2], 0, [1, 2], false, [1, 2], [⟨0, 1, true, 42⟩]⟩
        ⟨0, 1, fun a b => decide (a = b)⟩ [1]).2 = [] :=
  ⟨(set_callback_exactly_once ⟨0, [1, 2], 0, [1, 2], false, [1, 2], [⟨0, 1, true, 42⟩]⟩
      ⟨0, 1, fun a b => decide (a = b)⟩ [9] 42 (by decide) (by decide) (by decide)).1
      (by decide),
   (set_callback_exactly_once ⟨0, [1, 2], 0, [1, 2], false, [1, 2], [⟨0, 1, true, 42⟩]⟩
      ⟨0, 1, fun a b => decide (a = b)⟩ [1] 42 (by decide) (by decide) (by decide)).2
      (by decide)⟩

/-- C4: load() returns false when no load hook is installed or when the
hook reports failure, leaving the store untouched with no callbacks; on
hook success it returns true, the live record becomes the hook's output
through the whole-record update path, and the fired callbacks are
exactly those of registered (live) fields whose bytes changed. -/
theorem load_behavior (s : SState) (hook : Option (Bytes × Bool))
    (hq : seqOf s (!s.active) % 2 = 0) :
    (hook = none → load s hook = (false, s, [])) ∧
    (∀ r, hook = some (r, false) → load s hook = (false, s, [])) ∧
    (∀ r, hook = some (r, true) →
      (load s hook).1 = true ∧
      getAllOnce (load s hook).2.1 = some r ∧
      (load s hook).2.2 =
        triggerCallbacksForChanges s.callbacks (activeData s) r ∧
      (∀ e, e ∈ (load s hook).2.2 ↔
        ∃ slot ∈ s.callbacks, slot.thunkSet = true ∧
          memcmpNe (activeData s) r slot.memberOffset slot.memberSize = true ∧
          e = ⟨slot.memberOffset, slot.cbId,
               readBytesAt r slot.memberOffset slot.memberSize⟩)) := by
  refine ⟨?_, ?_, ?_⟩
  · rintro rfl; rfl
  · rintro r rfl; rfl
  · rintro r rfl
    have h1 : (load s (some (r, true))).2.1 = (update s r).1 := rfl
    have h2 : (load s (some (r, true))).2.2 = (update s r).2 := rfl
    refine ⟨rfl, ?_, ?_, ?_⟩
    · rw [h1, getAllOnce_update s r hq]
    · rw [h2, update_snd]
    · intro e
      rw [h2, update_snd]
      exact mem_triggerCallbacksForChanges s.callbacks (activeData s) r e

/-- C4 witness at a concrete store and hook results. -/
theorem load_behavior_witness :
    (load ⟨0, [1, 2], 0, [1, 2], false, [1, 2], [⟨0, 1, true, 42⟩]⟩
        (some ([7, 8], true))).1 = true ∧
    getAllOnce (load ⟨0, [1, 2], 0, [1, 2], false, [1, 2], [⟨0, 1, true, 42⟩]⟩
        (some ([7, 8], true))).2.1 = some [7, 8] ∧
    (load ⟨0, [1, 2], 0, [1, 2], false, [1, 2], [⟨0, 1, true, 42⟩]⟩
        (some ([7, 8], false))) =
      (false, ⟨0, [1, 2], 0, [1, 2], false, [1, 2], [⟨0, 1, true, 42⟩]⟩, []) := by
  refine ⟨?_, ?_, ?_⟩
  · exact ((load_behavior ⟨0, [1, 2], 0, [1, 2], false, [1, 2], [⟨0, 1, true, 42⟩]⟩
      (some ([7, 8], true)) (by decide)).2.2 [7, 8] rfl).1
  · exact ((load_behavior ⟨0, [1, 2], 0, [1, 2], false, [1, 2], [⟨0, 1, true, 42⟩]⟩
      (some ([7, 8], true)) (by decide)).2.2 [7, 8] rfl).2.1
  · exact (load_behavior ⟨0, [1, 2], 0, [1, 2], false, [1, 2], [⟨0, 1, true, 42⟩]⟩
      (some ([7, 8], false)) (by decide)).2.1 [7, 8] rfl

/-! ### Registry scan lemmas -/

theorem firedCallback_none_of_no_offset (cbs : List CallbackSlot) (off : Nat)
    (h : ∀ slot ∈ cbs, slot.memberOffset ≠ off) :
    firedCallback cbs off = none := by
  induction cbs with
  | nil => rfl
  | cons slot rest ih =>
    rw [firedCallback, if_neg]
    · exact ih (fun sl hm => h sl (List.mem_cons_of_mem _ hm))
    · intro hc
      exact h slot (List.mem_cons_self _ _) hc.1

theorem clearSlot_length (cbs : List CallbackSlot) (off : Nat) :
    (clearSlot cbs off).length = cbs.length := by
  induction cbs with
  | nil => rfl
  | cons slot rest ih =>
    rw [clearSlot]
    split <;> simp [ih]

theorem clearSlot_shape (cbs : List CallbackSlot) (off : Nat) :
    (clearSlot cbs off).map (fun cb => (cb.memberOffset, cb.memberSize)) =
      cbs.map (fun cb => (cb.memberOffset, cb.memberSize)) := by
  induction cbs with
  | nil => rfl
  | cons slot rest ih =>
    rw [clearSlot]
    split <;> simp [ih]

theorem clearSlot_same_offset_dead (cbs : List CallbackSlot) (off : Nat)
    (hu : offsetsUnique cbs) :
    ∀ slot ∈ clearSlot cbs off, slot.memberOffset = off →
      slot.thunkSet = false := by
  induction cbs with
  | nil => intro slot h; cases h
  | cons hd rest ih =>
    rw [offsetsUnique, List.pairwise_cons] at hu
    obtain ⟨hhd, htail⟩ := hu
    intro slot hmem hoff
    rw [clearSlot] at hmem
    split at hmem
    · rcases List.mem_cons.mp hmem with h | h
      · rw [h]
      · exact absurd hoff (by rename_i hhdoff; rw [← hhdoff]; exact (hhd slot h).symm)
    · rcases List.mem_cons.mp hmem with h | h
      · rename_i hne
        rw [h] at hoff
        exact absurd hoff hne
      · exact ih htail slot h hoff

theorem firedCallback_clearSlot (cbs : List CallbackSlot) (off : Nat)
    (hu : offsetsUnique cbs) :
    firedCallback (clearSlot cbs off) off = none := by
  induction cbs with
  | nil => rfl
  | cons hd rest ih =>
    rw [offsetsUnique, List.pairwise_cons] at hu
    obtain ⟨hhd, htail⟩ := hu
    rw [clearSlot]
    split
    · rename_i heq
      rw [firedCallback, if_neg (by simp)]
      exact firedCallback_none_of_no_offset rest off
        (fun sl hm => by rw [← heq]; exact (hhd sl hm).symm)
    · rename_i hne
      rw [firedCallback, if_neg (by simp [hne])]
      exact ih htail

theorem firstOffsetIdx_clearSlot (cbs : List CallbackSlot) (off : Nat) :
    firstOffsetIdx (clearSlot cbs off) off = firstOffsetIdx cbs off := by
  induction cbs with
  | nil => rfl
  | cons hd rest ih =>
    rw [clearSlot]
    split
    · rename_i heq
      rw [firstOffsetIdx, if_pos (by simpa using heq), firstOffsetIdx, if_pos heq]
    · rename_i hne
      rw [firstOffsetIdx, if_neg (by simpa using hne), firstOffsetIdx,
          if_neg hne, ih]

theorem firstOffsetIdx_spec (cbs : List CallbackSlot) (off : Nat) :
    ∀ i, firstOffsetIdx cbs off = some i →
      ∃ slot, cbs[i]? = some slot ∧ slot.memberOffset = off := by
  induction cbs with
  | nil => intro i h; cases h
  | cons hd rest ih =>
    intro i h
    rw [firstOffsetIdx] at h
    split at h
    · cases h
      exact ⟨hd, by simp, by assumption⟩
    · rcases Option.map_eq_some'.mp h with ⟨i', hi', rfl⟩
      obtain ⟨slot, hs, ho⟩ := ih i' hi'
      exact ⟨slot, by simpa using hs, ho⟩

theorem clearSlot_at (cbs : List CallbackSlot) (off : Nat) :
    ∀ i, firstOffsetIdx cbs off = some i →
      ∀ j, (clearSlot cbs off)[j]? =
        if j = i then (cbs[j]?).map (fun cb => { cb with thunkSet := false })
        else cbs[j]? := by
  induction cbs with
  | nil => intro i h; cases h
  | cons hd rest ih =>
    intro i h j
    rw [firstOffsetIdx] at h
    rw [clearSlot]
    split at h
    · cases h
      rename_i heq
      rw [if_pos heq]
      match j with
      | 0 => simp
      | j + 1 => simp
    · rcases Option.map_eq_some'.mp h with ⟨i', hi', rfl⟩
      rename_i hne
      rw [if_neg hne]
      match j with
      | 0 => simp
      | j + 1 =>
        have := ih i' hi' j
        simpa using this

theorem replaceSlot_none_iff (cbs : List CallbackSlot) (off id : Nat) :
    replaceSlot cbs off id = none ↔ ∀ slot ∈ cbs, slot.memberOffset ≠ off := by
  induction cbs with
  | nil => simp [replaceSlot]
  | cons hd rest ih =>
    rw [replaceSlot]
    split
    · rename_i heq
      simp [heq]
    · rename_i hne
      simp only [Option.map_eq_none', ih, List.mem_cons]
      constructor
      · intro h slot hm
        rcases hm with rfl | hm
        · exact hne
        · exact h slot hm
      · intro h slot hm
        exact h slot (Or.inr hm)

theorem replaceSlot_at (cbs : List CallbackSlot) (off id : Nat) :
    ∀ i, firstOffsetIdx cbs off = some i →
      ∃ cbs2, replaceSlot cbs off id = some cbs2 ∧
        cbs2.length = cbs.length ∧
        (∀ j, cbs2[j]? =
          if j = i then
            (cbs[j]?).map (fun cb => { cb with thunkSet := true, cbId := id })
          else cbs[j]?) := by
  induction cbs with
  | nil => intro i h; cases h
  | cons hd rest ih =>
    intro i h
    rw [firstOffsetIdx] at h
    rw [replaceSlot]
    split at h
    · cases h
      rename_i heq
      rw [if_pos heq]
      refine ⟨_, rfl, by simp, ?_⟩
      intro j
      match j with
      | 0 => simp
      | j + 1 => simp
    · rcases Option.map_eq_some'.mp h with ⟨i', hi', rfl⟩
      rename_i hne
      rw [if_neg hne]
      obtain ⟨cbs2, hrep, hlen, hat⟩ := ih i' hi'
      refine ⟨hd :: cbs2, by rw [hrep]; rfl, by simp [hlen], ?_⟩
      intro j
      match j with
      | 0 => simp
      | j + 1 =>
        have := hat j
        simpa using this

theorem replaceSlot_offsets (cbs : List CallbackSlot) (off id : Nat)
    (cbs2 : List CallbackSlot) (h : replaceSlot cbs off id = some cbs2) :
    cbs2.map (fun cb => cb.memberOffset) = cbs.map (fun cb => cb.memberOffset) := by
  induction cbs generalizing cbs2 with
  | nil => cases h
  | cons hd rest ih =>
    rw [replaceSlot] at h
    split at h
    · cases h
      simp
    · rcases Option.map_eq_some'.mp h with ⟨cbs', hc', rfl⟩
      simp [ih cbs' hc']

/-! ### Claim theorems C8, C9, C10 -/

/-- C8: After removeCallback(F), a change to F via per-field set fires
nothing, a whole-record update fires no invocation for F's offset, the
registry entry stays in place (same offsets and sizes at the same
positions, no compaction), and a later onChange(F, ...) re-enables the
same slot i in place, leaving every other slot untouched. -/
theorem removeCallback_disables (s : SState) (f : Field) (v c : Bytes)
    (maxCb id2 i : Nat)
    (hu : offsetsUnique s.callbacks)
    (hfi : firstOffsetIdx s.callbacks f.offset = some i) :
    (set (removeCallback s f) f v).2 = [] ∧
    (∀ e ∈ (update (removeCallback s f) c).2, e.offset ≠ f.offset) ∧
    ((removeCallback s f).callbacks.map (fun cb => (cb.memberOffset, cb.memberSize))
      = s.callbacks.map (fun cb => (cb.memberOffset, cb.memberSize))) ∧
    (∃ t, onChange maxCb (removeCallback s f) f id2 = (t, false) ∧
      t.callbacks.length = s.callbacks.length ∧
      (∃ slot, s.callbacks[i]? = some slot ∧
        t.callbacks[i]? = some ⟨slot.memberOffset, slot.memberSize, true, id2⟩) ∧
      (∀ j, j ≠ i → t.callbacks[j]? = s.callbacks[j]?)) := by
  have hcbs : (removeCallback s f).callbacks = clearSlot s.callbacks f.offset := rfl
  refine ⟨?_, ?_, clearSlot_shape s.callbacks f.offset, ?_⟩
  · rw [set_snd]
    split
    · rfl
    · rw [hcbs, triggerCallback_eq, firedCallback_clearSlot s.callbacks f.offset hu]
  · intro e hmem
    rw [update_snd, hcbs] at hmem
    rw [mem_triggerCallbacksForChanges] at hmem
    obtain ⟨slot, hsl, hth, _, rfl⟩ := hmem
    intro hoff
    have := clearSlot_same_offset_dead s.callbacks f.offset hu slot hsl hoff
    rw [this] at hth
    cases hth
  · have hfi2 : firstOffsetIdx (clearSlot s.callbacks f.offset) f.offset = some i := by
      rw [firstOffsetIdx_clearSlot, hfi]
    obtain ⟨cbs2, hrep, hlen, hat⟩ :=
      replaceSlot_at (clearSlot s.callbacks f.offset) f.offset id2 i hfi2
    obtain ⟨slot, hsl, hoff⟩ := firstOffsetIdx_spec s.callbacks f.offset i hfi
    refine ⟨{ (removeCallback s f) with callbacks := cbs2 }, ?_, ?_, ?_, ?_⟩
    · rw [onChange, hcbs, hrep]
    · rw [hlen, clearSlot_length]
    · refine ⟨slot, hsl, ?_⟩
      have h1 := hat i
      rw [if_pos rfl] at h1
      have h2 := clearSlot_at s.callbacks f.offset i hfi i
      rw [if_pos rfl] at h2
      show cbs2[i]? = _
      rw [h1, h2, hsl]
      rfl
    · intro j hj
      have h1 := hat j
      rw [if_neg hj] at h1
      have h2 := clearSlot_at s.callbacks f.offset i hfi j
      rw [if_neg hj] at h2
      show cbs2[j]? = _
      rw [h1, h2]

/-- C8 witness at a concrete registry with one live entry. -/
theorem removeCallback_disables_witness :
    (set (removeCallback ⟨0, [1, 2], 0, [1, 2], false, [1, 2], [⟨0, 1, true, 42⟩]⟩
        ⟨0, 1, fun a b => decide (a = b)⟩) ⟨0, 1, fun a b => decide (a = b)⟩ [9]).2 = [] :=
  (removeCallback_disables ⟨0, [1, 2], 0, [1, 2], false, [1, 2], [⟨0, 1, true, 42⟩]⟩
    ⟨0, 1, fun a b => decide (a = b)⟩ [9] [7, 7] 4 99 0
    (by simp [offsetsUnique]) (by decide)).1

/-- C9: Registering more distinct fields than MaxCallbacks raises the
assertion (returned Bool) and registers nothing rather than reporting a
recoverable error; re-registering an offset that already has a slot
replaces that slot in place without consuming capacity; and the
registry invariant of at most one slot per distinct offset is preserved
by onChange. -/
theorem onChange_capacity (s : SState) (f : Field) (id maxCb : Nat) :
    ((∀ slot ∈ s.callbacks, slot.memberOffset ≠ f.offset) →
      maxCb ≤ s.callbacks.length → onChange maxCb s f id = (s, true)) ∧
    (∀ i, firstOffsetIdx s.callbacks f.offset = some i →
      ∃ t, onChange maxCb s f id = (t, false) ∧
        t.callbacks.length = s.callbacks.length ∧
        (∃ slot, s.callbacks[i]? = some slot ∧
          t.callbacks[i]? = some ⟨slot.memberOffset, slot.memberSize, true, id⟩) ∧
        (∀ j, j ≠ i → t.callbacks[j]? = s.callbacks[j]?)) ∧
    (offsetsUnique s.callbacks → offsetsUnique (onChange maxCb s f id).1.callbacks) := by
  refine ⟨?_, ?_, ?_⟩
  · intro hnone hcap
    rw [onChange, (replaceSlot_none_iff s.callbacks f.offset id).mpr hnone,
        if_pos hcap]
  · intro i hfi
    obtain ⟨cbs2, hrep, hlen, hat⟩ := replaceSlot_at s.callbacks f.offset id i hfi
    obtain ⟨slot, hsl, hoff⟩ := firstOffsetIdx_spec s.callbacks f.offset i hfi
    refine ⟨{ s with callbacks := cbs2 }, by rw [onChange, hrep], hlen, ⟨slot, hsl, ?_⟩, ?_⟩
    · have h1 := hat i
      rw [if_pos rfl] at h1
      show cbs2[i]? = _
      rw [h1, hsl]
      rfl
    · intro j hj
      have h1 := hat j
      rw [if_neg hj] at h1
      exact h1
  · intro hu
    rcases hrep : replaceSlot s.callbacks f.offset id with _ | cbs2
    · simp only [onChange, hrep]
      rw [replaceSlot_none_iff] at hrep
      split
      · exact hu
      · show offsetsUnique (s.callbacks ++ [⟨f.offset, f.width, true, id⟩])
        rw [offsetsUnique, List.pairwise_append]
        refine ⟨hu, List.pairwise_singleton _ _, ?_⟩
        intro a ha b hb
        rw [List.mem_singleton] at hb
        rw [hb]
        exact hrep a ha
    · simp only [onChange, hrep]
      show offsetsUnique cbs2
      have hoffs := replaceSlot_offsets s.callbacks f.offset id cbs2 hrep
      have h1 : (s.callbacks.map (fun cb => cb.memberOffset)).Pairwise (· ≠ ·) :=
        (List.pairwise_map).mpr hu
      rw [← hoffs] at h1
      exact (List.pairwise_map).mp h1

/-- C9 witness: overflow at a full one-slot registry for a fresh offset. -/
theorem onChange_capacity_witness :
    onChange 1 ⟨0, [1, 2], 0, [1, 2], false, [1, 2], [⟨0, 1, true, 42⟩]⟩
        ⟨1, 1, fun a b => decide (a = b)⟩ 7 =
      (⟨0, [1, 2], 0, [1, 2], false, [1, 2], [⟨0, 1, true, 42⟩]⟩, true) :=
  (onChange_capacity ⟨0, [1, 2], 0, [1, 2], false, [1, 2], [⟨0, 1, true, 42⟩]⟩
    ⟨1, 1, fun a b => decide (a = b)⟩ 7 1).1 (by decide) (by decide)

theorem triggerCallbacksForChanges_cons (hd : CallbackSlot)
    (rest : List CallbackSlot) (oldC newC : Bytes) :
    triggerCallbacksForChanges (hd :: rest) oldC newC =
      (if hd.thunkSet = true ∧ memcmpNe oldC newC hd.memberOffset hd.memberSize = true
       then [⟨hd.memberOffset, hd.cbId, readBytesAt newC hd.memberOffset hd.memberSize⟩]
       else []) ++ triggerCallbacksForChanges rest oldC newC := by
  simp only [triggerCallbacksForChanges, List.filterMap_cons]
  by_cases h : hd.thunkSet = true ∧ memcmpNe oldC newC hd.memberOffset hd.memberSize = true
  · rw [if_pos h, if_pos h]
    rfl
  · rw [if_neg h, if_neg h]
    simp

theorem filter_triggerChanges_nil (cbs : List CallbackSlot)
    (oldC newC : Bytes) (off : Nat)
    (h : ∀ slot ∈ cbs, slot.memberOffset ≠ off) :
    (triggerCallbacksForChanges cbs oldC newC).filter
      (fun e => decide (e.offset = off)) = [] := by
  induction cbs with
  | nil => rfl
  | cons hd rest ih =>
    have hhd : hd.memberOffset ≠ off := h hd (List.mem_cons_self _ _)
    have htail := ih (fun sl hm => h sl (List.mem_cons_of_mem _ hm))
    rw [triggerCallbacksForChanges_cons, List.filter_append, htail]
    split <;> simp [hhd]

theorem filter_triggerChanges (cbs : List CallbackSlot) (oldC newC : Bytes)
    (off w id : Nat) (hu : offsetsUnique cbs)
    (hmem : (⟨off, w, true, id⟩ : CallbackSlot) ∈ cbs)
    (hdiff : memcmpNe oldC newC off w = true) :
    (triggerCallbacksForChanges cbs oldC newC).filter
      (fun e => decide (e.offset = off)) = [⟨off, id, readBytesAt newC off w⟩] := by
  induction cbs with
  | nil => cases hmem
  | cons hd rest ih =>
    rw [offsetsUnique, List.pairwise_cons] at hu
    obtain ⟨hhd, htail⟩ := hu
    rcases List.mem_cons.mp hmem with heq | hmem2
    · have hrest : ∀ sl ∈ rest, sl.memberOffset ≠ off := fun sl hm => by
        rw [← heq] at hhd
        exact (hhd sl hm).symm
      rw [← heq, triggerCallbacksForChanges_cons,
          if_pos (And.intro rfl hdiff), List.filter_append,
          filter_triggerChanges_nil rest oldC newC off hrest]
      simp
    · have hhdoff : hd.memberOffset ≠ off := by
        have := hhd _ hmem2
        simpa using this
      rw [triggerCallbacksForChanges_cons, List.filter_append, ih htail hmem2]
      split <;> simp [hhdoff]

/-- C10: The two write paths use different change-detection predicates:
whole-record update fires F's callback when F's raw bytes differ
(memcmp), while per-field set fires when the values compare unequal
under the field type's operator==. Hence for a field whose operator==
identifies bytewise-different values, the same transition fires the
callback through update but not through set. -/
theorem set_vs_update_divergence (s : SState) (f : Field) (v : Bytes)
    (id : Nat)
    (hu : offsetsUnique s.callbacks)
    (hmem : (⟨f.offset, f.width, true, id⟩ : CallbackSlot) ∈ s.callbacks)
    (hw : v.length = f.width)
    (hb : f.offset + f.width ≤ (activeData s).length)
    (hbeq : f.beq (readField (activeData s) f) v = true)
    (hne : ¬ readField (activeData s) f = v) :
    (set s f v).2 = [] ∧
    (update s (writeField (activeData s) f v)).2.filter
      (fun e => decide (e.offset = f.offset)) = [⟨f.offset, id, v⟩] := by
  have hrb : readField (writeField (activeData s) f v) f = v :=
    readField_writeField _ _ _ hw hb
  constructor
  · rw [set_snd, hrb, if_pos hbeq]
  · rw [update_snd]
    have hdiff : memcmpNe (activeData s) (writeField (activeData s) f v)
        f.offset f.width = true := by
      rw [memcmpNe, decide_eq_true_iff]
      show ¬ readField (activeData s) f = readField (writeField (activeData s) f v) f
      rw [hrb]
      exact hne
    have hres := filter_triggerChanges s.callbacks (activeData s)
      (writeField (activeData s) f v) f.offset f.width id hu hmem hdiff
    rw [hres]
    show [(⟨f.offset, id, readField (writeField (activeData s) f v) f⟩ : Event)] = _
    rw [hrb]

/-- C10 witness: a two-byte field whose operator== compares only the
first byte; update fires the callback, set does not. -/
theorem set_vs_update_divergence_witness :
    (set ⟨0, [0, 1], 0, [0, 1], false, [0, 1], [⟨0, 2, true, 7⟩]⟩
        ⟨0, 2, fun a b => decide (a.headD 0 = b.headD 0)⟩ [0, 2]).2 = [] ∧
    (update ⟨0, [0, 1], 0, [0, 1], false, [0, 1], [⟨0, 2, true, 7⟩]⟩
        (writeField (activeData ⟨0, [0, 1], 0, [0, 1], false, [0, 1], [⟨0, 2, true, 7⟩]⟩)
          ⟨0, 2, fun a b => decide (a.headD 0 = b.headD 0)⟩ [0, 2])).2.filter
      (fun e => decide (e.offset = 0)) = [⟨0, 7, [0, 2]⟩] :=
  set_vs_update_divergence ⟨0, [0, 1], 0, [0, 1], false, [0, 1], [⟨0, 2, true, 7⟩]⟩
    ⟨0, 2, fun a b => decide (a.headD 0 = b.headD 0)⟩ [0, 2] 7
    (by simp [offsetsUnique]) (by decide) (by decide) (by decide)
    (by decide) (by decide)

/-! ### List helpers for the byte-by-byte copy protocol -/

theorem take_set_of_le (l : Bytes) (k x : Nat) :
    (l.set k x).take k = l.take k := by
  apply List.ext_getElem?
  intro m
  by_cases hm : m < k
  · rw [List.getElem?_take_of_lt hm, List.getElem?_take_of_lt hm,
        List.getElem?_set_ne (by omega)]
  · rw [List.getElem?_take, List.getElem?_take]
    simp [if_neg hm]

theorem take_succ_set (a b : Bytes) (k : Nat) (ha : k < a.length)
    (hb : k < b.length) (hpre : a.take k = b.take k) :
    (a.set k (b.getD k 0)).take (k + 1) = b.take (k + 1) := by
  rw [List.take_succ, List.take_succ, take_set_of_le, hpre,
      List.getElem?_set_eq_of_lt _ ha]
  congr 1
  rw [List.getElem?_eq_getElem hb, List.getD_eq_getElem b 0 hb]

theorem take_succ_append_getD (d : Bytes) (m : Nat) (hm : m < d.length) :
    d.take m ++ [d.getD m 0] = d.take (m + 1) := by
  rw [List.take_succ, List.getElem?_eq_getElem hm]
  congr 1
  rw [List.getD_eq_getElem d 0 hm]
  rfl

theorem take_full_eq (a b : Bytes) (n : Nat) (ha : a.length = n)
    (hb : b.length = n) (h : a.take n = b.take n) : a = b := by
  have h1 : a.take n = a := by rw [← ha]; exact List.take_length a
  have h2 : b.take n = b := by rw [← hb]; exact List.take_length b
  rw [h1, h2] at h
  exact h

namespace Conc

/-! ### Projection lemmas for the concurrent state -/

theorem seqOf_setSeq (s : CState) (b b2 : Bool) (v : Nat) :
    seqOf (setSeq s b v) b2 = if b2 = b then v else seqOf s b2 := by
  cases b <;> cases b2 <;> simp [seqOf, setSeq]

theorem dataOf_setSeq (s : CState) (b b2 : Bool) (v : Nat) :
    dataOf (setSeq s b v) b2 = dataOf s b2 := by
  cases b <;> cases b2 <;> simp [dataOf, setSeq]

theorem seqOf_setData (s : CState) (b b2 : Bool) (d : Bytes) :
    seqOf (setData s b d) b2 = seqOf s b2 := by
  cases b <;> cases b2 <;> simp [seqOf, setData]

theorem dataOf_setData (s : CState) (b b2 : Bool) (d : Bytes) :
    dataOf (setData s b d) b2 = if b2 = b then d else dataOf s b2 := by
  cases b <;> cases b2 <;> simp [dataOf, setData]

theorem written_setSeq (s : CState) (b : Bool) (v : Nat) :
    (setSeq s b v).written = s.written := by
  cases b <;> rfl

theorem written_setData (s : CState) (b : Bool) (d : Bytes) :
    (setData s b d).written = s.written := by
  cases b <;> rfl

theorem seqOf_setLockWritten (s : CState) (l : Bool) (w : List Bytes)
    (b : Bool) : seqOf { s with lock := l, written := w } b = seqOf s b := by
  cases b <;> rfl

theorem dataOf_setLockWritten (s : CState) (l : Bool) (w : List Bytes)
    (b : Bool) : dataOf { s with lock := l, written := w } b = dataOf s b := by
  cases b <;> rfl

theorem seqOf_setActive (s : CState) (a : Bool) (b : Bool) :
    seqOf { s with active := a } b = seqOf s b := by
  cases b <;> rfl

theorem dataOf_setActive (s : CState) (a : Bool) (b : Bool) :
    dataOf { s with active := a } b = dataOf s b := by
  cases b <;> rfl

theorem seqOf_setLock (s : CState) (l : Bool) (b : Bool) :
    seqOf { s with lock := l } b = seqOf s b := by
  cases b <;> rfl

theorem dataOf_setLock (s : CState) (l : Bool) (b : Bool) :
    dataOf { s with lock := l } b = dataOf s b := by
  cases b <;> rfl

/-- The invariant holds in the initial state. -/
theorem inv_init (n : Nat) (d : Bytes) (hd : d.length = n) :
    Inv n (initTS d) := by
  refine ⟨?_, ?_, ?_, ?_, ?_, ?_, ?_, ?_⟩
  · intro b
    cases b <;> exact hd
  · intro b
    constructor
    · intro h
      have : seqOf (initTS d).st b = 0 := by cases b <;> rfl
      rw [this] at h
      cases h
    · rintro ⟨c, s, k, hk⟩
      cases hk
  · intro b _
    have : dataOf (initTS d).st b = d := by cases b <;> rfl
    rw [this]
    exact List.mem_singleton.mpr rfl
  · intro c h
    cases h
  · intro c tgt s k h
    cases h
  · intro c tgt h
    cases h
  · intro idx s acc h
    cases h
  · intro res h
    cases h

/-- The invariant is preserved by every step. -/
theorem inv_step {n : Nat} {ts ts2 : TState} (hinv : Inv n ts)
    (hstep : Step n ts ts2) : Inv n ts2 := by
  cases hstep with
  | wBegin c hw hl hlen =>
    have heven : ∀ b : Bool, seqOf ts.st b % 2 = 0 := by
      intro b
      rcases Nat.mod_two_eq_zero_or_one (seqOf ts.st b) with h | h
      · exact h
      · obtain ⟨c2, s2, k2, hk⟩ := (hinv.seqParity b).mp h
        rw [hw] at hk
        exact WPc.noConfusion hk
    refine ⟨?_, ?_, ?_, ?_, ?_, ?_, ?_, ?_⟩
    · intro b
      rw [dataOf_setLockWritten]
      exact hinv.lens b
    · intro b
      rw [seqOf_setLockWritten]
      constructor
      · intro h
        exfalso
        have := heven b
        omega
      · rintro ⟨c2, s2, k2, hk⟩
        cases hk
    · intro b h
      rw [seqOf_setLockWritten] at h
      rw [dataOf_setLockWritten]
      exact List.mem_cons_of_mem _ (hinv.evenWritten b h)
    · intro c2 h
      injection h with hc
      subst hc
      exact ⟨hlen, List.mem_cons_self _ _⟩
    · intro c2 tgt s k h
      cases h
    · intro c2 tgt h
      cases h
    · intro idx s acc h
      obtain ⟨h1, h2, h3, h4⟩ := hinv.copyInv idx s acc h
      refine ⟨h1, h2, ?_, ?_⟩
      · rw [seqOf_setLockWritten]
        exact h3
      · intro hs
        rw [seqOf_setLockWritten] at hs
        rw [dataOf_setLockWritten]
        exact h4 hs
    · intro res h
      exact List.mem_cons_of_mem _ (hinv.doneInv res h)
  | wSeqOdd c hw =>
    have hstart := hinv.startInv c hw
    have heven : ∀ b : Bool, seqOf ts.st b % 2 = 0 := by
      intro b
      rcases Nat.mod_two_eq_zero_or_one (seqOf ts.st b) with h | h
      · exact h
      · obtain ⟨c2, s2, k2, hk⟩ := (hinv.seqParity b).mp h
        rw [hw] at hk
        exact WPc.noConfusion hk
    refine ⟨?_, ?_, ?_, ?_, ?_, ?_, ?_, ?_⟩
    · intro b
      rw [dataOf_setSeq]
      exact hinv.lens b
    · intro b
      rw [seqOf_setSeq]
      by_cases hb : b = !ts.st.active
      · rw [if_pos hb]
        constructor
        · intro _
          exact ⟨c, seqOf ts.st (!ts.st.active), 0, by rw [hb]⟩
        · intro _
          have := heven (!ts.st.active)
          omega
      · rw [if_neg hb]
        constructor
        · intro h
          exfalso
          have := heven b
          omega
        · rintro ⟨c2, s2, k2, hk⟩
          injection hk with h1 h2 h3 h4
          exact absurd h2.symm hb
    · intro b h
      rw [seqOf_setSeq] at h
      rw [dataOf_setSeq, written_setSeq]
      by_cases hb : b = !ts.st.active
      · rw [if_pos hb] at h
        exfalso
        have := heven (!ts.st.active)
        omega
      · rw [if_neg hb] at h
        exact hinv.evenWritten b h
    · intro c2 h
      cases h
    · intro c2 tgt2 s2 k2 h
      injection h with h1 h2 h3 h4
      subst h1
      subst h2
      subst h3
      subst h4
      refine ⟨hstart.1, ?_, Nat.zero_le n, ?_, ?_⟩
      · rw [written_setSeq]
        exact hstart.2
      · rw [seqOf_setSeq, if_pos rfl]
      · simp
    · intro c2 tgt2 h
      cases h
    · intro idx s acc h
      obtain ⟨h1, h2, h3, h4⟩ := hinv.copyInv idx s acc h
      refine ⟨h1, h2, ?_, ?_⟩
      · rw [seqOf_setSeq]
        by_cases hb : idx = !ts.st.active
        · rw [if_pos hb]
          have heq : seqOf ts.st idx = seqOf ts.st (!ts.st.active) := by rw [hb]
          omega
        · rw [if_neg hb]
          exact h3
      · intro hs
        rw [seqOf_setSeq] at hs
        rw [dataOf_setSeq]
        by_cases hb : idx = !ts.st.active
        · rw [if_pos hb] at hs
          exfalso
          have := heven (!ts.st.active)
          omega
        · rw [if_neg hb] at hs
          exact h4 hs
    · intro res h
      rw [written_setSeq]
      exact hinv.doneInv res h
  | wByte c tgt s k hw hk =>
    obtain ⟨hclen, hcmem, hkle, hseq, hpre⟩ := hinv.writingInv c tgt s k hw
    have hodd : seqOf ts.st tgt % 2 = 1 := (hinv.seqParity tgt).mpr ⟨c, s, k, hw⟩
    refine ⟨?_, ?_, ?_, ?_, ?_, ?_, ?_, ?_⟩
    · intro b
      rw [dataOf_setData]
      by_cases hb : b = tgt
      · rw [if_pos hb, List.length_set]
        exact hinv.lens tgt
      · rw [if_neg hb]
        exact hinv.lens b
    · intro b
      rw [seqOf_setData]
      constructor
      · intro h
        obtain ⟨c2, s2, k2, hk2⟩ := (hinv.seqParity b).mp h
        rw [hw] at hk2
        injection hk2 with h1 h2 h3 h4
        exact ⟨c, s, k + 1, by rw [h2]⟩
      · rintro ⟨c2, s2, k2, hk2⟩
        injection hk2 with h1 h2 h3 h4
        rw [← h2]
        exact hodd
    · intro b h
      rw [seqOf_setData] at h
      rw [dataOf_setData, written_setData]
      by_cases hb : b = tgt
      · rw [hb] at h
        exfalso
        omega
      · rw [if_neg hb]
        exact hinv.evenWritten b h
    · intro c2 h
      cases h
    · intro c2 tgt2 s2 k2 h
      injection h with h1 h2 h3 h4
      subst h1
      subst h2
      subst h3
      subst h4
      refine ⟨hclen, ?_, by omega, ?_, ?_⟩
      · rw [written_setData]
        exact hcmem
      · rw [seqOf_setData]
        exact hseq
      · rw [dataOf_setData, if_pos rfl]
        exact take_succ_set (dataOf ts.st tgt) c k
          (by rw [hinv.lens tgt]; exact hk) (by rw [hclen]; exact hk) hpre
    · intro c2 tgt2 h
      cases h
    · intro idx s2 acc h
      obtain ⟨h1, h2, h3, h4⟩ := hinv.copyInv idx s2 acc h
      refine ⟨h1, h2, ?_, ?_⟩
      · rw [seqOf_setData]
        exact h3
      · intro hs
        rw [seqOf_setData] at hs
        rw [dataOf_setData]
        by_cases hb : idx = tgt
        · exfalso
          rw [hb] at hs
          omega
        · rw [if_neg hb]
          exact h4 hs
    · intro res h
      rw [written_setData]
      exact hinv.doneInv res h
  | wSeqEven c tgt s hw =>
    obtain ⟨hclen, hcmem, hkle, hseq, hpre⟩ := hinv.writingInv c tgt s n hw
    have hodd : seqOf ts.st tgt % 2 = 1 := (hinv.seqParity tgt).mpr ⟨c, s, n, hw⟩
    have hsev : s % 2 = 0 := by omega
    have hdc : dataOf ts.st tgt = c := take_full_eq _ _ n (hinv.lens tgt) hclen hpre
    refine ⟨?_, ?_, ?_, ?_, ?_, ?_, ?_, ?_⟩
    · intro b
      rw [dataOf_setSeq]
      exact hinv.lens b
    · intro b
      rw [seqOf_setSeq]
      by_cases hb : b = tgt
      · rw [if_pos hb]
        constructor
        · intro h
          exfalso
          omega
        · rintro ⟨c2, s2, k2, hk⟩
          cases hk
      · rw [if_neg hb]
        constructor
        · intro h
          obtain ⟨c2, s2, k2, hk⟩ := (hinv.seqParity b).mp h
          rw [hw] at hk
          injection hk with h1 h2 h3 h4
          exact absurd h2.symm hb
        · rintro ⟨c2, s2, k2, hk⟩
          cases hk
    · intro b h
      rw [seqOf_setSeq] at h
      rw [dataOf_setSeq, written_setSeq]
      by_cases hb : b = tgt
      · rw [hb, hdc]
        exact hcmem
      · rw [if_neg hb] at h
        exact hinv.evenWritten b h
    · intro c2 h
      cases h
    · intro c2 tgt2 s2 k2 h
      cases h
    · intro c2 tgt2 h
      injection h with h1 h2
      subst h1
      subst h2
      rw [dataOf_setSeq, written_setSeq]
      exact ⟨hdc, hcmem⟩
    · intro idx s2 acc h
      obtain ⟨h1, h2, h3, h4⟩ := hinv.copyInv idx s2 acc h
      refine ⟨h1, h2, ?_, ?_⟩
      · rw [seqOf_setSeq]
        by_cases hb : idx = tgt
        · rw [if_pos hb]
          have heq : seqOf ts.st idx = seqOf ts.st tgt := by rw [hb]
          omega
        · rw [if_neg hb]
          exact h3
      · intro hs
        rw [seqOf_setSeq] at hs
        rw [dataOf_setSeq]
        by_cases hb : idx = tgt
        · rw [if_pos hb] at hs
          exfalso
          have heq : seqOf ts.st idx = seqOf ts.st tgt := by rw [hb]
          omega
        · rw [if_neg hb] at hs
          exact h4 hs
    · intro res h
      rw [written_setSeq]
      exact hinv.doneInv res h
  | wPublish c tgt hw =>
    have heven : ∀ b : Bool, seqOf ts.st b % 2 = 0 := by
      intro b
      rcases Nat.mod_two_eq_zero_or_one (seqOf ts.st b) with h | h
      · exact h
      · obtain ⟨c2, s2, k2, hk⟩ := (hinv.seqParity b).mp h
        rw [hw] at hk
        exact WPc.noConfusion hk
    refine ⟨?_, ?_, ?_, ?_, ?_, ?_, ?_, ?_⟩
    · intro b
      rw [dataOf_setActive]
      exact hinv.lens b
    · intro b
      rw [seqOf_setActive]
      constructor
      · intro h
        exfalso
        have := heven b
        omega
      · rintro ⟨c2, s2, k2, hk⟩
        cases hk
    · intro b h
      rw [seqOf_setActive] at h
      rw [dataOf_setActive]
      exact hinv.evenWritten b h
    · intro c2 h
      cases h
    · intro c2 tgt2 s2 k2 h
      cases h
    · intro c2 tgt2 h
      cases h
    · intro idx s2 acc h
      obtain ⟨h1, h2, h3, h4⟩ := hinv.copyInv idx s2 acc h
      refine ⟨h1, h2, ?_, ?_⟩
      · rw [seqOf_setActive]
        exact h3
      · intro hs
        rw [seqOf_setActive] at hs
        rw [dataOf_setActive]
        exact h4 hs
    · intro res h
      exact hinv.doneInv res h
  | wUnlock hw =>
    have heven : ∀ b : Bool, seqOf ts.st b % 2 = 0 := by
      intro b
      rcases Nat.mod_two_eq_zero_or_one (seqOf ts.st b) with h | h
      · exact h
      · obtain ⟨c2, s2, k2, hk⟩ := (hinv.seqParity b).mp h
        rw [hw] at hk
        exact WPc.noConfusion hk
    refine ⟨?_, ?_, ?_, ?_, ?_, ?_, ?_, ?_⟩
    · intro b
      rw [dataOf_setLock]
      exact hinv.lens b
    · intro b
      rw [seqOf_setLock]
      constructor
      · intro h
        exfalso
        have := heven b
        omega
      · rintro ⟨c2, s2, k2, hk⟩
        cases hk
    · intro b h
      rw [seqOf_setLock] at h
      rw [dataOf_setLock]
      exact hinv.evenWritten b h
    · intro c2 h
      cases h
    · intro c2 tgt2 s2 k2 h
      cases h
    · intro c2 tgt2 h
      cases h
    · intro idx s2 acc h
      obtain ⟨h1, h2, h3, h4⟩ := hinv.copyInv idx s2 acc h
      refine ⟨h1, h2, ?_, ?_⟩
      · rw [seqOf_setLock]
        exact h3
      · intro hs
        rw [seqOf_setLock] at hs
        rw [dataOf_setLock]
        exact h4 hs
    · intro res h
      exact hinv.doneInv res h
  | rBegin hr hev =>
    refine ⟨hinv.lens, hinv.seqParity, hinv.evenWritten, hinv.startInv,
            hinv.writingInv, hinv.wroteInv, ?_, ?_⟩
    · intro idx s acc h
      injection h with h1 h2 h3
      subst h1
      subst h2
      subst h3
      refine ⟨hev, Nat.zero_le n, Nat.le_refl _, ?_⟩
      intro _
      rfl
    · intro res h
      cases h
  | rCopy idx s acc hr hlt =>
    obtain ⟨h1, h2, h3, h4⟩ := hinv.copyInv idx s acc hr
    refine ⟨hinv.lens, hinv.seqParity, hinv.evenWritten, hinv.startInv,
            hinv.writingInv, hinv.wroteInv, ?_, ?_⟩
    · intro idx2 s2 acc2 h
      injection h with hi hs ha
      subst hi
      subst hs
      subst ha
      refine ⟨h1, by simpa using hlt, h3, ?_⟩
      intro hseq
      have hacc := h4 hseq
      have hml : acc.length < (dataOf ts.st idx).length := by
        rw [hinv.lens idx]
        exact hlt
      calc acc ++ [(dataOf ts.st idx).getD acc.length 0]
          = (dataOf ts.st idx).take acc.length ++
              [(dataOf ts.st idx).getD acc.length 0] := by rw [← hacc]
        _ = (dataOf ts.st idx).take (acc.length + 1) :=
              take_succ_append_getD _ _ hml
        _ = (dataOf ts.st idx).take
              ((acc ++ [(dataOf ts.st idx).getD acc.length 0]).length) := by simp
    · intro res h
      cases h
  | rValidateOk idx s acc hr hlen hseq hev =>
    obtain ⟨h1, h2, h3, h4⟩ := hinv.copyInv idx s acc hr
    refine ⟨hinv.lens, hinv.seqParity, hinv.evenWritten, hinv.startInv,
            hinv.writingInv, hinv.wroteInv, ?_, ?_⟩
    · intro idx2 s2 acc2 h
      cases h
    · intro res h
      injection h with hres
      subst hres
      have hacc := h4 hseq
      have heq2 : acc = dataOf ts.st idx := by
        rw [hacc, hlen, ← hinv.lens idx]
        exact List.take_length _
      rw [heq2]
      exact hinv.evenWritten idx (by rw [hseq]; exact hev)
  | rAbort idx s acc hr =>
    refine ⟨hinv.lens, hinv.seqParity, hinv.evenWritten, hinv.startInv,
            hinv.writingInv, hinv.wroteInv, ?_, ?_⟩
    · intro idx2 s2 acc2 h
      cases h
    · intro res h
      cases h
  | rRestart res hr =>
    refine ⟨hinv.lens, hinv.seqParity, hinv.evenWritten, hinv.startInv,
            hinv.writingInv, hinv.wroteInv, ?_, ?_⟩
    · intro idx2 s2 acc2 h
      cases h
    · intro res2 h
      cases h

/-- Every reachable state satisfies the invariant. -/
theorem inv_reachable (n : Nat) (d : Bytes) (hd : d.length = n)
    (ts : TState) (h : Reachable n d ts) : Inv n ts := by
  induction h with
  | refl => exact inv_init n d hd
  | tail hsteps hstep ih => exact inv_step ih hstep

/-! ### Claim theorems C1, C2 -/

/-- C1: In every interleaved execution from a setDefault(d) baseline,
every record a completed getAll() returns is byte-identical to some
complete record value previously handed to a write call (the ghost
written history, initialized with the setDefault value): readers never
observe a record mixing pre-write and post-write bytes. -/
theorem getAll_no_torn_reads (n : Nat) (d : Bytes) (hd : d.length = n)
    (ts : TState) (hr : Reachable n d ts) (res : Bytes)
    (hdone : ts.r = RPc.done res) : res ∈ ts.st.written :=
  (inv_reachable n d hd ts hr).doneInv res hdone

/-- C1 witness: a complete read of a one-byte record returns the
initial default, which is in the written history. -/
theorem getAll_no_torn_reads_witness :
    [5] ∈ (TState.mk ⟨0, [5], 0, [5], false, false, [[5]]⟩
            WPc.idle (RPc.done [5])).st.written := by
  have h1 : Step 1 (initTS [5])
      (TState.mk ⟨0, [5], 0, [5], false, false, [[5]]⟩
        WPc.idle (RPc.copying false 0 [])) :=
    Step.rBegin (initTS [5]) rfl rfl
  have h2 : Step 1
      (TState.mk ⟨0, [5], 0, [5], false, false, [[5]]⟩
        WPc.idle (RPc.copying false 0 []))
      (TState.mk ⟨0, [5], 0, [5], false, false, [[5]]⟩
        WPc.idle (RPc.copying false 0 [5])) :=
    Step.rCopy _ false 0 [] rfl (by decide)
  have h3 : Step 1
      (TState.mk ⟨0, [5], 0, [5], false, false, [[5]]⟩
        WPc.idle (RPc.copying false 0 [5]))
      (TState.mk ⟨0, [5], 0, [5], false, false, [[5]]⟩
        WPc.idle (RPc.done [5])) :=
    Step.rValidateOk _ false 0 [5] rfl rfl rfl rfl
  exact getAll_no_torn_reads 1 [5] rfl _
    (Relation.ReflTransGen.tail (Relation.ReflTransGen.tail
      (Relation.ReflTransGen.tail Relation.ReflTransGen.refl h1) h2) h3)
    [5] rfl

/-- C2 counterexample: the write path's two increments store seq+1 and
seq+2 relative to the loaded counter, so they preserve the starting
parity rather than restoring evenness: a write that starts with the
counter at the odd value 1 ends with it at 3, which is odd — refuting
"after the second increment the counter is even, regardless of the
parity the counter started with". The step chain runs the full write
protocol of the model from such an odd-counter state. -/
theorem seq_two_increments_counterexample :
    ¬ (seqWriteEnd 1 % 2 = 0) ∧
    Relation.ReflTransGen (Step 1)
      (TState.mk ⟨1, [0], 0, [7], true, true, [[9], [7]]⟩
        (WPc.start [9]) RPc.idle)
      (TState.mk ⟨3, [9], 0, [7], true, true, [[9], [7]]⟩
        (WPc.wrote [9] false) RPc.idle) ∧
    seqOf (TState.mk ⟨3, [9], 0, [7], true, true, [[9], [7]]⟩
        (WPc.wrote [9] false) RPc.idle).st false % 2 = 1 := by
  have h1 : Step 1
      (TState.mk ⟨1, [0], 0, [7], true, true, [[9], [7]]⟩
        (WPc.start [9]) RPc.idle)
      (TState.mk ⟨2, [0], 0, [7], true, true, [[9], [7]]⟩
        (WPc.writing [9] false 1 0) RPc.idle) :=
    Step.wSeqOdd _ [9] rfl
  have h2 : Step 1
      (TState.mk ⟨2, [0], 0, [7], true, true, [[9], [7]]⟩
        (WPc.writing [9] false 1 0) RPc.idle)
      (TState.mk ⟨2, [9], 0, [7], true, true, [[9], [7]]⟩
        (WPc.writing [9] false 1 1) RPc.idle) :=
    Step.wByte _ [9] false 1 0 rfl (by decide)
  have h3 : Step 1
      (TState.mk ⟨2, [9], 0, [7], true, true, [[9], [7]]⟩
        (WPc.writing [9] false 1 1) RPc.idle)
      (TState.mk ⟨3, [9], 0, [7], true, true, [[9], [7]]⟩
        (WPc.wrote [9] false) RPc.idle) :=
    Step.wSeqEven _ [9] false 1 rfl
  exact ⟨by decide,
    Relation.ReflTransGen.tail (Relation.ReflTransGen.tail
      (Relation.ReflTransGen.tail Relation.ReflTransGen.refl h1) h2) h3,
    by decide⟩

/-- C2 (amended): every write performs exactly the two increment stores
seqWriteBegin s = s + 1 and seqWriteEnd s = s + 2 of the counter value s
loaded at write start, which preserves the starting parity; in every
reachable state a slot's counter is odd exactly while a writer is
mid-write on that slot, and since reachable writes therefore always
begin from an even counter, the counter is even again after the second
increment. -/
theorem seq_parity_invariant (n : Nat) (d : Bytes) (hd : d.length = n)
    (ts : TState) (hr : Reachable n d ts) :
    (∀ b : Bool, seqOf ts.st b % 2 = 1 ↔
      ∃ c s k, ts.w = WPc.writing c b s k) ∧
    (∀ c tgt s k, ts.w = WPc.writing c tgt s k →
      seqOf ts.st tgt = seqWriteBegin s ∧ s % 2 = 0) ∧
    (∀ c tgt, ts.w = WPc.wrote c tgt → seqOf ts.st tgt % 2 = 0) := by
  have hinv := inv_reachable n d hd ts hr
  refine ⟨hinv.seqParity, ?_, ?_⟩
  · intro c tgt s k hw
    obtain ⟨_, _, _, hseq, _⟩ := hinv.writingInv c tgt s k hw
    have hodd : seqOf ts.st tgt % 2 = 1 :=
      (hinv.seqParity tgt).mpr ⟨c, s, k, hw⟩
    exact ⟨hseq, by rw [hseq] at hodd; omega⟩
  · intro c tgt hw
    rcases Nat.mod_two_eq_zero_or_one (seqOf ts.st tgt) with h | h
    · exact h
    · obtain ⟨c2, s2, k2, hk⟩ := (hinv.seqParity tgt).mp h
      rw [hw] at hk
      exact WPc.noConfusion hk

/-- C2 witness: after a full write of [9] over the default [5], the
target slot's counter is even again. -/
theorem seq_parity_invariant_witness :
    seqOf (TState.mk ⟨0, [5], 2, [9], false, true, [[9], [5]]⟩
        (WPc.wrote [9] true) RPc.idle).st true % 2 = 0 := by
  have h1 : Step 1 (initTS [5])
      (TState.mk ⟨0, [5], 0, [5], false, true, [[9], [5]]⟩
        (WPc.start [9]) RPc.idle) :=
    Step.wBegin (initTS [5]) [9] rfl rfl rfl
  have h2 : Step 1
      (TState.mk ⟨0, [5], 0, [5], false, true, [[9], [5]]⟩
        (WPc.start [9]) RPc.idle)
      (TState.mk ⟨0, [5], 1, [5], false, true, [[9], [5]]⟩
        (WPc.writing [9] true 0 0) RPc.idle) :=
    Step.wSeqOdd _ [9] rfl
  have h3 : Step 1
      (TState.mk ⟨0, [5], 1, [5], false, true, [[9], [5]]⟩
        (WPc.writing [9] true 0 0) RPc.idle)
      (TState.mk ⟨0, [5], 1, [9], false, true, [[9], [5]]⟩
        (WPc.writing [9] true 0 1) RPc.idle) :=
    Step.wByte _ [9] true 0 0 rfl (by decide)
  have h4 : Step 1
      (TState.mk ⟨0, [5], 1, [9], false, true, [[9], [5]]⟩
        (WPc.writing [9] true 0 1) RPc.idle)
      (TState.mk ⟨0, [5], 2, [9], false, true, [[9], [5]]⟩
        (WPc.wrote [9] true) RPc.idle) :=
    Step.wSeqEven _ [9] true 0 rfl
  exact (seq_parity_invariant 1 [5] rfl _
    (Relation.ReflTransGen.tail (Relation.ReflTransGen.tail
      (Relation.ReflTransGen.tail (Relation.ReflTransGen.tail
        Relation.ReflTransGen.refl h1) h2) h3) h4)).2.2 [9] true rfl

end Conc

end Configly
